import Mathlib

/-!
Shallow embedding of the recommendation core of `src/src/app/page.tsx`
(dapp-profile-analyzer): portfolio aggregation, profile-tag extraction,
token scoring and diversity-constrained selection, as implemented in the
`recommendations` query, `portfolioByNetwork` and `totalPortfolioValue`.

JavaScript strings are embedded as `List Char`; JS `Set` objects as
duplicate-free lists built by `addTag` (insertion order preserved, as JS
sets iterate in insertion order); JS numbers as `ℚ`, with `Option ℚ`
where `NaN` can arise (`none` = NaN).
-/

namespace DappProfile

/-- Embedded JS string. -/
abbrev Str := List Char

/-- Shorthand turning a Lean string literal into an embedded JS string. -/
def S (s : String) : Str := s.toList

/-- JS `String.prototype.toLowerCase` (ASCII range, which is all the
source's string constants use). -/
def lower (s : Str) : Str := s.map Char.toLower

/-- Whitespace class used by the code's `\s` regexps and by `parseFloat`
(ASCII whitespace). -/
def jsWs (c : Char) : Bool :=
  c = ' ' ∨ c = '\t' ∨ c = '\n' ∨ c = '\r' ∨ c = '\x0b' ∨ c = '\x0c'

/-- JS regexp `\w`: `[A-Za-z0-9_]`. -/
def wordChar (c : Char) : Bool :=
  (('a' ≤ c ∧ c ≤ 'z') ∨ ('A' ≤ c ∧ c ≤ 'Z') ∨ ('0' ≤ c ∧ c ≤ '9') ∨ c = '_')

/-- JS regexp `\d`. -/
def digitChar (c : Char) : Bool := '0' ≤ c ∧ c ≤ '9'

/-- `/^\d+$/.test s`: `s` is non-empty and purely numeric. -/
def allDigits (s : Str) : Bool := ¬ s.isEmpty ∧ s.all digitChar

/-- `needle` occurs at the start of `hay`. -/
def isPre : Str → Str → Bool
  | [], _ => true
  | _ :: _, [] => false
  | a :: as, b :: bs => a = b ∧ isPre as bs

/-- JS `hay.includes(needle)`: substring containment. -/
def incl : Str → Str → Bool
  | [], n => n.isEmpty
  | c :: rest, n => isPre n (c :: rest) ∨ incl rest n

/-- `String.prototype.trim` (both ends). -/
def trim (s : Str) : Str :=
  ((s.dropWhile jsWs).reverse.dropWhile jsWs).reverse

/-- All contiguous 3-character substrings of `s`, in order — the "stems"
enumerated by the `for` loop in `hasOverlap` (`minStemLength = 3`). -/
def windows3 : Str → List Str
  | c1 :: c2 :: c3 :: rest => [c1, c2, c3] :: windows3 (c2 :: c3 :: rest)
  | _ => []

/-- `hasOverlap(str1, str2)` from `scoreToken` (page.tsx:1051-1067):
mutual inclusion check, then a shared 3-character stem check. -/
def hasOverlap (s1 s2 : Str) : Bool :=
  incl s1 s2 ∨ incl s2 s1 ∨ (windows3 s1).any (fun st => incl s2 st)

/-- JS `Set.prototype.add` on a set embedded as a duplicate-free list in
insertion order. -/
def addTag (acc : List Str) (s : Str) : List Str :=
  if s ∈ acc then acc else acc ++ [s]

/-! ### JS split on `/[\s_-]+/` (used for name-word extraction) -/

/-- Separator class of the regexp `[\s_-]`. -/
def sepChar (c : Char) : Bool := jsWs c ∨ c = '_' ∨ c = '-'

mutual
/-- `s.split(/[\s_-]+/)`: pieces between maximal separator runs,
accumulating the current piece (reversed) in `cur`. -/
def jsSplitAux : Str → Str → List Str
  | [], cur => [cur.reverse]
  | c :: cs, cur =>
    if sepChar c then cur.reverse :: jsSplitSkip cs
    else jsSplitAux cs (c :: cur)

/-- Skips the remainder of a separator run; an exhausted input after a
run contributes a final empty piece (JS keeps boundary empties). -/
def jsSplitSkip : Str → List Str
  | [] => [[]]
  | c :: cs => if sepChar c then jsSplitSkip cs else jsSplitAux cs [c]
end

/-- `name.split(/[\s_-]+/)`. -/
def splitWords (s : Str) : List Str := jsSplitAux s []

/-! ### Data model -/

/-- A JS field value as delivered by the portfolio API: absent, numeric,
or a string. -/
inductive JRaw where
  | missing : JRaw
  | num : ℚ → JRaw
  | str : Str → JRaw
deriving DecidableEq

/-- One portfolio balance edge (`edge.node` of the portfolio query):
`symbol` is always present; `name` and `network.name` are accessed with
optional chaining in the tag extractor, hence `Option`. -/
structure Holding where
  symbol : Str
  name : Option Str
  network : Option Str
  balanceUSD : JRaw
deriving DecidableEq

/-- One catalog entry from the token-metadata API. `name`, `symbol`, `id`
are accessed unconditionally by the scorer/selector; `categories` is
guarded by `|| []`, so a missing field behaves as `[]`. -/
structure Token where
  id : Str
  symbol : Str
  name : Str
  categories : List Str
  price_change_24h : Option ℚ
deriving DecidableEq

/-! ### Portfolio Aggregator (`totalPortfolioValue`, `portfolioByNetwork`) -/

/-- Decimal value of a digit run (most significant first). -/
def digitsVal (ds : Str) : ℕ :=
  ds.foldl (fun acc c => 10 * acc + (c.toNat - '0'.toNat)) 0

/-- JS `parseFloat` restricted to the decimal forms the code can meet
(`[ws][+-]digits[.digits]` prefix parse); `none` models `NaN`.
Exponent forms and `Infinity` are not modelled — nothing in the claims
or the code under scrutiny depends on them. -/
def parseFloatChars (s : Str) : Option ℚ :=
  let s1 := s.dropWhile jsWs
  let (neg, s2) :=
    match s1 with
    | '-' :: rest => (true, rest)
    | '+' :: rest => (false, rest)
    | other => (false, other)
  let ds := s2.takeWhile digitChar
  let rest := s2.dropWhile digitChar
  let fds :=
    match rest with
    | '.' :: r => r.takeWhile digitChar
    | _ => []
  if ds.isEmpty ∧ fds.isEmpty then none
  else
    let mag : ℚ := (digitsVal ds : ℚ) + (digitsVal fds : ℚ) / ((10 : ℚ) ^ fds.length)
    some (if neg then -mag else mag)

/-- `parseFloat(edge.node.balanceUSD || 0)` (page.tsx:1349): a missing
value, a falsy number (0) and the empty string all fall back to `0`;
a non-empty string is parsed, possibly to NaN (`none`). -/
def numOfBUsd : JRaw → Option ℚ
  | .missing => some 0
  | .num q => some q
  | .str [] => some 0
  | .str (c :: cs) => parseFloatChars (c :: cs)

/-- JS `+` on possibly-NaN numbers: NaN absorbs. -/
def addNaN : Option ℚ → Option ℚ → Option ℚ
  | some a, some b => some (a + b)
  | _, _ => none

/-- `totalPortfolioValue` (page.tsx:1343-1351): 0 for an absent/empty
portfolio, else `reduce((total, e) => total + parseFloat(e.node.balanceUSD || 0), 0)`. -/
def totalPortfolioValue (P : List Holding) : Option ℚ :=
  if P.isEmpty then some 0
  else P.foldl (fun acc h => addNaN acc (numOfBUsd h.balanceUSD)) (some 0)

/-- One step of the grouping reduce: push `h` onto the group keyed by
`k`, creating the key at the end on first sight (JS object key order). -/
def addToGroup (acc : List (Str × List Holding)) (k : Str) (h : Holding) :
    List (Str × List Holding) :=
  if acc.any (fun p => p.1 == k) then
    acc.map (fun p => if p.1 = k then (p.1, p.2 ++ [h]) else p)
  else acc ++ [(k, [h])]

/-- `portfolioByNetwork` (page.tsx:1327-1340): `{}` for an absent/empty
portfolio, else a grouping reduce on `edge.node.network.name`, which is
accessed without optional chaining — a holding with no network throws
(modelled as `none`). -/
def portfolioByNetwork (P : List Holding) : Option (List (Str × List Holding)) :=
  if P.isEmpty then some []
  else P.foldl
    (fun acc h => acc.bind (fun g => h.network.map (fun k => addToGroup g k h)))
    (some [])

/-! ### Tag Extractor (page.tsx:920-1023) -/

/-- `portfolioTokenSymbols` (page.tsx:921-923): held symbols, lowercased. -/
def heldSymbols (P : List Holding) : List Str := P.map (fun h => lower h.symbol)

/-- `networksFound` (page.tsx:926-931): set of lowercased network names
with a present, non-empty `network.name`. -/
def networksFound (P : List Holding) : List Str :=
  P.foldl
    (fun acc h =>
      match h.network with
      | some s => if s.isEmpty then acc else addTag acc (lower s)
      | none => acc)
    []

/-- `cleanSymbol` (page.tsx:940-944): lowercase, strip `[^\w\s-]`, trim. -/
def cleanSymbol (s : Str) : Str :=
  trim ((lower s).filter (fun c => wordChar c ∨ jsWs c ∨ c = '-'))

/-- `categoryKeywords` (page.tsx:970-978). -/
def categoryKeywords : List Str :=
  [S "defi", S "finance", S "swap", S "exchange", S "yield", S "farm", S "stake",
   S "lend", S "borrow", S "loan", S "credit", S "save", S "dao", S "governance",
   S "game", S "gaming", S "metaverse", S "play", S "nft", S "art", S "collect",
   S "meme", S "doge", S "shib", S "pepe", S "inu", S "floki", S "moon", S "safe",
   S "token", S "coin", S "chain", S "net", S "protocol", S "bridge", S "oracle",
   S "data", S "ai", S "index", S "synth", S "wrapped", S "stable", S "gold",
   S "privacy", S "identity", S "payment", S "layer"]

/-- Scam-name test (page.tsx:1006-1009). -/
def scamName (name : Str) : Bool :=
  incl name (S "airdrop") ∨ incl name (S "claim") ∨ incl name (S ".com") ∨
  incl name (S ".io") ∨ incl name (S ".org") ∨ incl name (S "https://") ∨
  incl name (S "http://") ∨ incl name (S "visit") ∨ incl name (S "free") ∨
  incl name (S "website")

/-- Meme-pattern test (page.tsx:988-992). -/
def memePattern (name symbol : Str) : Bool :=
  incl name (S "inu") ∨ incl name (S "shib") ∨ incl name (S "doge") ∨
  incl name (S "pepe") ∨ incl name (S "moon") ∨ incl name (S "elon") ∨
  incl name (S "safe") ∨ incl name (S "cum") ∨ incl name (S "baby") ∨
  incl symbol (S "inu") ∨ incl symbol (S "shib") ∨ incl symbol (S "doge") ∨
  incl symbol (S "pepe")

/-- Yield/lending-token heuristic (page.tsx:998-1000). -/
def yieldPattern (symbol : Str) : Bool :=
  (isPre (S "a") symbol ∧ symbol.length ≤ 5) ∨
  (isPre (S "c") symbol ∧ symbol.length ≤ 5) ∨
  (isPre (S "y") symbol ∧ symbol.length ≤ 5)

/-- Symbol step (page.tsx:952-955). -/
def symStep (acc : List Str) (symbol : Str) : List Str :=
  if 1 < symbol.length ∧ ¬ allDigits symbol then addTag acc symbol else acc

/-- Network step (page.tsx:957-967): full lowercased network name plus
the part before the first underscore when non-empty and distinct. -/
def netStep (acc : List Str) (network : Option Str) : List Str :=
  match network with
  | none => acc
  | some s =>
    if s.isEmpty then acc
    else
      let networkName := lower s
      let acc2 := addTag acc networkName
      let simplified := networkName.takeWhile (fun c => c ≠ '_')
      if ¬ simplified.isEmpty ∧ simplified ≠ networkName then addTag acc2 simplified
      else acc2

/-- Category-keyword step (page.tsx:980-985). -/
def keywordStep (acc : List Str) (name symbol : Str) : List Str :=
  categoryKeywords.foldl
    (fun a k => if incl name k ∨ incl symbol k then addTag a k else a) acc

/-- Meme step (page.tsx:987-995). -/
def memeStep (acc : List Str) (name symbol : Str) : List Str :=
  if memePattern name symbol then addTag (addTag acc (S "meme")) (S "meme-token")
  else acc

/-- Yield step (page.tsx:997-1003). -/
def yieldStep (acc : List Str) (symbol : Str) : List Str :=
  if yieldPattern symbol then addTag (addTag acc (S "yield")) (S "lend") else acc

/-- Name-word step (page.tsx:1005-1022): suppressed entirely for
scam-looking names; otherwise, for names of at most 3 words, adds each
word of length ≥ 3 that is not purely numeric. -/
def wordStep (acc : List Str) (name : Str) : List Str :=
  if scamName name then acc
  else
    let nameWords := splitWords name
    if nameWords.length ≤ 3 then
      nameWords.foldl
        (fun a w => if 3 ≤ w.length ∧ ¬ allDigits w then addTag a w else a) acc
    else acc

/-- `token.name?.toLowerCase() || ''`. -/
def holdingName (h : Holding) : Str :=
  match h.name with
  | some s => lower s
  | none => []

/-- Per-holding body of the `portfolioData.forEach` at page.tsx:947-1023. -/
def processHolding (acc : List Str) (h : Holding) : List Str :=
  let symbol := cleanSymbol h.symbol
  let name := holdingName h
  wordStep
    (yieldStep
      (memeStep
        (keywordStep (netStep (symStep acc symbol) h.network) name symbol)
        name symbol)
      symbol)
    name

/-- `portfolioTokenTypes` (page.tsx:936, 947-1023): the profile tag set,
as an insertion-ordered duplicate-free list. -/
def portfolioTokenTypes (P : List Holding) : List Str :=
  P.foldl processHolding []

/-! ### Token Scorer (`scoreToken`, page.tsx:1033-1150) -/

/-- Skip test for problematic profile tags (page.tsx:1074); the third
literal uses U+2024 (one dot leader), exactly as in the source. -/
def skipType (typeStr : Str) : Bool :=
  incl typeStr (S "visit:") ∨ incl typeStr (S "claim") ∨ incl typeStr (S "․com")

/-- `specialTypes` table (page.tsx:1094-1106). -/
def specialTypes : List (Str × List Str) :=
  [(S "meme", [S "meme-token", S "meme-coin", S "dog-themed"]),
   (S "lend", [S "lending", S "defi", S "yield", S "staking"]),
   (S "gold", [S "store-of-value", S "commodity", S "precious-metal"]),
   (S "layer", [S "layer-1", S "layer-2", S "blockchain", S "scaling"]),
   (S "pepe", [S "meme-token", S "frog", S "meme-coin"]),
   (S "bnb", [S "binance", S "bnb-chain", S "bsc", S "bep20"]),
   (S "ban", [S "meme-coin", S "community"]),
   (S "bobby", [S "meme-token", S "community", S "nft-related"]),
   (S "top", [S "exchange-token", S "utility"]),
   (S "synx", [S "privacy", S "utility"]),
   (S "dct", [S "utility", S "governance"])]

/-- Special-type bonus (page.tsx:1108-1117): +5 for every table pair
whose key overlaps the tag and whose category overlaps some candidate
category. -/
def specialContrib (lowerCats : List Str) (typeStr : Str) : ℤ :=
  (specialTypes.map (fun kc =>
    if hasOverlap typeStr kc.1 then
      5 * ((kc.2.filter (fun c => lowerCats.any (fun cat => hasOverlap cat c))).length : ℤ)
    else 0)).sum

/-- `defi/lend/yield` tag-side family test (page.tsx:1125). -/
def famDefiT (s : Str) : Bool :=
  incl s (S "defi") ∨ incl s (S "lend") ∨ incl s (S "yield")

/-- `defi/lend/yield/staking` category-side family test (page.tsx:1126-1127). -/
def famDefiC (s : Str) : Bool :=
  incl s (S "defi") ∨ incl s (S "lend") ∨ incl s (S "yield") ∨ incl s (S "staking")

/-- `meme/pepe/doge` family test (page.tsx:1131-1133). -/
def famMeme (s : Str) : Bool :=
  incl s (S "meme") ∨ incl s (S "pepe") ∨ incl s (S "doge")

/-- `layer/chain/network` family test (page.tsx:1137-1139). -/
def famLayer (s : Str) : Bool :=
  incl s (S "layer") ∨ incl s (S "chain") ∨ incl s (S "network")

/-- Score contribution of one profile tag (the body of the
`portfolioTokenTypes` forEach, page.tsx:1070-1142). -/
def typeContrib (lowerCats : List Str) (nameL symL : Str) (nets : List Str)
    (ty : Str) : ℤ :=
  let typeStr := lower ty
  if skipType typeStr then 0
  else
    (if lowerCats.any (fun c => hasOverlap c typeStr) then 10 else 0)
    + (if hasOverlap nameL typeStr ∨ hasOverlap symL typeStr then 8 else 0)
    + specialContrib lowerCats typeStr
    + (if typeStr ∈ nets ∧ lowerCats.any (fun c => hasOverlap c typeStr) then 7 else 0)
    + (if famDefiT typeStr ∧ lowerCats.any famDefiC then 6 else 0)
    + (if famMeme typeStr ∧ lowerCats.any famMeme then 6 else 0)
    + (if famLayer typeStr ∧ lowerCats.any famLayer then 4 else 0)

/-- Trending bonus (page.tsx:1145-1147); `price_change_24h` must be
present and truthy (0 is falsy, but 0 > 5 fails anyway). -/
def trendBonus (t : Token) : ℤ :=
  match t.price_change_24h with
  | some q => if 5 < q then 3 else 0
  | none => 0

/-- `scoreToken` (page.tsx:1033-1150). -/
def scoreToken (types held nets : List Str) (t : Token) : ℤ :=
  if lower t.symbol ∈ held then -1
  else
    let lowerCats := t.categories.map lower
    (types.map (typeContrib lowerCats (lower t.name) (lower t.symbol) nets)).sum
      + trendBonus t

/-! ### Recommendation Selector (page.tsx:1152-1235) -/

/-- A scored catalog entry (`{...token, score}`; the `matchingCategories`
explanation field plays no role in any claim). -/
structure SToken where
  tok : Token
  score : ℤ
deriving DecidableEq

/-- Comparator of the sort at page.tsx:1189 (`(a, b) => b.score - a.score`):
`a` may precede `b` iff `a.score ≥ b.score`. -/
def scoreDesc (a b : SToken) : Prop := b.score ≤ a.score

instance : DecidableRel scoreDesc :=
  fun a b => inferInstanceAs (Decidable (b.score ≤ a.score))

instance : IsTotal SToken scoreDesc := ⟨fun a b => le_total b.score a.score⟩

instance : IsTrans SToken scoreDesc := ⟨fun _ _ _ hab hbc => le_trans hbc hab⟩

/-- `scoredTokens` (page.tsx:1153-1189): score, filter `score > 0`, sort
descending by score. The JS engine sort is stable, and a stable sort
under a consistent comparator has a unique result, so the stable
`insertionSort` produces exactly the JS list. -/
def scoredSorted (types held nets : List Str) (C : List Token) : List SToken :=
  ((C.map (fun t => SToken.mk t (scoreToken types held nets t))).filter
    (fun st => 0 < st.score)).insertionSort scoreDesc

/-- `token.categories[0]?.toLowerCase() || ''` (page.tsx:1202). -/
def mainCat (st : SToken) : Str :=
  match st.tok.categories with
  | [] => []
  | c :: _ => lower c

/-- Diversity pass (page.tsx:1197-1209): at most one candidate per
first-listed category, stopping at 5. -/
def diversityLoop : List SToken → List Str → List SToken → List SToken
  | [], _, acc => acc
  | t :: ts, cats, acc =>
    if mainCat t ∉ cats ∧ acc.length < 5 then
      let acc2 := acc ++ [t]
      if 5 ≤ acc2.length then acc2 else diversityLoop ts (cats ++ [mainCat t]) acc2
    else if 5 ≤ acc.length then acc
    else diversityLoop ts cats acc

/-- Fill pass (page.tsx:1212-1220): append candidates whose `id` is not
already present, stopping at 5. -/
def fillLoop : List SToken → List SToken → List SToken
  | [], acc => acc
  | t :: ts, acc =>
    let acc2 :=
      if (¬ ∃ u ∈ acc, u.tok.id = t.tok.id) ∧ acc.length < 5 then acc ++ [t]
      else acc
    if 5 ≤ acc2.length then acc2 else fillLoop ts acc2

/-- Ranked branch of the selector (page.tsx:1192-1222). -/
def rankedSel (sorted : List SToken) : List SToken :=
  let best := sorted.take 5
  let d := diversityLoop sorted [] []
  let r := if d.length < 5 then fillLoop best d else d
  if 0 < r.length then r else best

/-- No-match fallback (`topTokens`, page.tsx:1227-1233): first 5 catalog
entries not held and not usdt/usdc, in catalog order. -/
def topTokensF (held : List Str) (C : List Token) : List Token :=
  (C.filter (fun t =>
    lower t.symbol ∉ held ∧ lower t.symbol ≠ S "usdt" ∧ lower t.symbol ≠ S "usdc")).take 5

/-- The core `recommend` on an already-extracted profile: ranked branch
when some candidate scores > 0, else the fallback. The ranked branch is
projected to its token data (the JS value carries the extra `score` and
`matchingCategories` explanation fields on top of the token). -/
def recommendWith (types held nets : List Str) (C : List Token) : List Token :=
  let sorted := scoredSorted types held nets C
  if 0 < sorted.length then (rankedSel sorted).map SToken.tok
  else topTokensF held C

/-- `recommend(P, C)`: the recommendation pipeline of the
`recommendations` queryFn after the data is fetched (page.tsx:920-1235). -/
def recommend (P : List Holding) (C : List Token) : List Token :=
  recommendWith (portfolioTokenTypes P) (heldSymbols P) (networksFound P) C

/-- The `recommendations` queryFn including its guard (page.tsx:900):
`if (!portfolioData || portfolioData.length === 0) return null` — an
empty portfolio yields an absent (`null`) result. -/
def recommendOpt (P : List Holding) (C : List Token) : Option (List Token) :=
  if P.isEmpty then none else some (recommend P C)

/-- The selector exactly as the specification words it: diversity pass,
then — if fewer than 5 were collected — fill from the full score-sorted
list (not from its 5-element prefix), skipping ids already chosen. -/
def selectSpecification (sorted : List SToken) : List SToken :=
  let d := diversityLoop sorted [] []
  if d.length < 5 then fillLoop sorted d else d

/-- The extractor body with the name-word step removed: the comparison
point for the amended scam-filter claim (the scam filter suppresses
only that step). -/
def processHoldingKeepingSymbol (acc : List Str) (h : Holding) : List Str :=
  let symbol := cleanSymbol h.symbol
  let name := holdingName h
  yieldStep
    (memeStep
      (keywordStep (netStep (symStep acc symbol) h.network) name symbol)
      name symbol)
    symbol

/-- Sample catalog entry: a trending stablecoin (priceChange24h = 10 > 5). -/
def trendingUsdt : Token :=
  ⟨S "t1", S "usdt", S "tether", [], some 10⟩

/-- Sample catalog entry with no trending bonus. -/
def plainToken : Token :=
  ⟨S "a1", S "aaa", S "alpha", [S "xyz"], none⟩

/-- Sample catalog entry with an empty categories sequence whose symbol
and name overlap a profile tag. -/
def emptyCatToken : Token :=
  ⟨S "x1", S "defi", S "defi", [], none⟩

/-- Sample holding with a scam-looking name (the one from the spec). -/
def scamHolding : Holding :=
  ⟨S "scamx", some (S "Free Airdrop Claim http://scam.io"),
    some (S "ETHEREUM_MAINNET"), JRaw.missing⟩

/-- Sample holding whose `balanceUSD` is a present but unparseable string. -/
def badUsdHolding : Holding :=
  ⟨S "bad", none, none, JRaw.str (S "abc")⟩

/-- Sample catalog entry matching a "defi" profile tag. -/
def uniToken : Token :=
  ⟨S "d1", S "uni", S "uniswap", [S "defi"], none⟩

/-- The spec's diversity example: two "defi"-first candidates and one
"nft"-first candidate, with pairwise distinct ids. -/
def specCatalog : List Token :=
  [⟨S "a", S "aaa", S "adefi", [S "defi"], none⟩,
   ⟨S "b", S "bbb", S "bdefi", [S "defi"], none⟩,
   ⟨S "c", S "ccc", S "cnft", [S "nft"], none⟩]

/-! ### Basic lemmas about the embedded set/list operations -/

theorem mem_addTag {x : Str} (acc : List Str) (s : Str) (hx : x ∈ acc) :
    x ∈ addTag acc s := by
  unfold addTag
  split
  · exact hx
  · exact List.mem_append_left _ hx

theorem addTag_self (acc : List Str) (s : Str) : s ∈ addTag acc s := by
  unfold addTag
  split
  · assumption
  · exact List.mem_append_right _ (List.mem_singleton.mpr rfl)

theorem mem_foldl_of_step {β : Type} (f : List Str → β → List Str)
    (hf : ∀ a b x, x ∈ a → x ∈ f a b) :
    ∀ (L : List β) (acc : List Str) (x : Str), x ∈ acc → x ∈ L.foldl f acc := by
  intro L
  induction L with
  | nil => intro acc x hx; simpa using hx
  | cons b bs ih =>
    intro acc x hx
    simpa using ih (f acc b) x (hf acc b x hx)

theorem mem_symStep {x : Str} (acc : List Str) (s : Str) (hx : x ∈ acc) :
    x ∈ symStep acc s := by
  unfold symStep; split
  · exact mem_addTag acc s hx
  · exact hx

theorem mem_netStep {x : Str} (acc : List Str) (nw : Option Str) (hx : x ∈ acc) :
    x ∈ netStep acc nw := by
  unfold netStep
  cases nw with
  | none => exact hx
  | some s =>
    simp only []
    split
    · exact hx
    · split
      · exact mem_addTag _ _ (mem_addTag acc _ hx)
      · exact mem_addTag acc _ hx

theorem mem_keywordStep {x : Str} (acc : List Str) (n s : Str) (hx : x ∈ acc) :
    x ∈ keywordStep acc n s := by
  unfold keywordStep
  refine mem_foldl_of_step _ ?_ _ acc x hx
  intro a b y hy
  split
  · exact mem_addTag a b hy
  · exact hy

theorem mem_memeStep {x : Str} (acc : List Str) (n s : Str) (hx : x ∈ acc) :
    x ∈ memeStep acc n s := by
  unfold memeStep; split
  · exact mem_addTag _ _ (mem_addTag acc _ hx)
  · exact hx

theorem mem_yieldStep {x : Str} (acc : List Str) (s : Str) (hx : x ∈ acc) :
    x ∈ yieldStep acc s := by
  unfold yieldStep; split
  · exact mem_addTag _ _ (mem_addTag acc _ hx)
  · exact hx

theorem mem_wordStep {x : Str} (acc : List Str) (n : Str) (hx : x ∈ acc) :
    x ∈ wordStep acc n := by
  unfold wordStep
  split
  · exact hx
  · dsimp only
    split
    · refine mem_foldl_of_step _ ?_ _ acc x hx
      intro a b y hy
      split
      · exact mem_addTag a b hy
      · exact hy
    · exact hx

/-! ### Non-negativity of the per-tag score contributions -/

theorem specialContrib_nonneg (lc : List Str) (typeStr : Str) :
    0 ≤ specialContrib lc typeStr := by
  unfold specialContrib
  apply List.sum_nonneg
  intro x hx
  simp only [List.mem_map] at hx
  obtain ⟨kc, -, rfl⟩ := hx
  split
  · exact mul_nonneg (by norm_num) (Int.natCast_nonneg _)
  · exact le_refl 0

theorem typeContrib_nonneg (lc : List Str) (n s : Str) (nets : List Str) (ty : Str) :
    0 ≤ typeContrib lc n s nets ty := by
  simp only [typeContrib]
  split
  · exact le_refl 0
  · refine add_nonneg (add_nonneg (add_nonneg (add_nonneg (add_nonneg
      (add_nonneg ?_ ?_) (specialContrib_nonneg lc (lower ty))) ?_) ?_) ?_) ?_ <;>
      (split <;> norm_num)

theorem trendBonus_nonneg (t : Token) : 0 ≤ trendBonus t := by
  unfold trendBonus
  split
  · split <;> norm_num
  · exact le_refl 0

theorem scoreToken_not_held_nonneg (types held nets : List Str) (t : Token)
    (h : lower t.symbol ∉ held) : 0 ≤ scoreToken types held nets t := by
  simp only [scoreToken, if_neg h]
  refine add_nonneg (List.sum_nonneg ?_) (trendBonus_nonneg t)
  intro x hx
  simp only [List.mem_map] at hx
  obtain ⟨ty, -, rfl⟩ := hx
  exact typeContrib_nonneg _ _ _ _ _

theorem scoreToken_held (types held nets : List Str) (t : Token)
    (h : lower t.symbol ∈ held) : scoreToken types held nets t = -1 := by
  simp only [scoreToken, if_pos h]

/-- **C9** (implicit): the scorer returns -1 exactly for already-held
candidates; every other score is a non-negative sum of bonuses, so -1 is
the only possible negative score and exclusion by score coincides with
the already-held check. -/
theorem c9_score_sign (types held nets : List Str) (t : Token) :
    (lower t.symbol ∈ held ∧ scoreToken types held nets t = -1) ∨
    (lower t.symbol ∉ held ∧ 0 ≤ scoreToken types held nets t) := by
  by_cases h : lower t.symbol ∈ held
  · exact Or.inl ⟨h, scoreToken_held types held nets t h⟩
  · exact Or.inr ⟨h, scoreToken_not_held_nonneg types held nets t h⟩

/-- **C7**: adding to the profile a tag that overlaps (in the sense of
`hasOverlap`) some category of a candidate never decreases that
candidate's score (JS `Set.add` modelled by `addTag`). -/
theorem c7_monotonicity (types held nets : List Str) (c : Token) (t : Str)
    (_hov : ∃ cat ∈ c.categories, hasOverlap (lower cat) (lower t) = true) :
    scoreToken types held nets c ≤ scoreToken (addTag types t) held nets c := by
  unfold addTag
  split
  · exact le_refl _
  · by_cases h : lower c.symbol ∈ held
    · simp only [scoreToken, if_pos h, le_refl]
    · simp only [scoreToken, if_neg h, List.map_append, List.sum_append,
        List.map_cons, List.map_nil, List.sum_cons, List.sum_nil, add_zero]
      have := typeContrib_nonneg (c.categories.map lower) (lower c.name)
        (lower c.symbol) nets t
      omega

/-- Witness for C7 at a concrete input. -/
theorem c7_monotonicity_witness :
    scoreToken [] [] [] ⟨S "l1", S "link", S "chainlink", [S "defi"], none⟩ ≤
      scoreToken (addTag [] (S "defi")) [] []
        ⟨S "l1", S "link", S "chainlink", [S "defi"], none⟩ :=
  c7_monotonicity [] [] [] ⟨S "l1", S "link", S "chainlink", [S "defi"], none⟩
    (S "defi") (by decide)

/-! ### C4: empty categories do not make a candidate unscorable -/

/-- **C4 counterexample**: a candidate with an empty `categories`
sequence scores 8 (> 0) via the name/symbol-overlap bonus and appears in
the ranked (score-filtered) output, contrary to the claim. -/
theorem c4_counterexample :
    emptyCatToken.categories = [] ∧
    scoreToken [S "defi"] [] [] emptyCatToken = 8 ∧
    scoredSorted [S "defi"] [] [] [emptyCatToken] ≠ [] ∧
    emptyCatToken ∈ recommendWith [S "defi"] [] [] [emptyCatToken] := by
  decide

theorem typeContrib_empty_cats (n s : Str) (nets : List Str) (ty : Str)
    (hn : skipType (lower ty) = false →
      hasOverlap n (lower ty) = false ∧ hasOverlap s (lower ty) = false) :
    typeContrib [] n s nets ty = 0 := by
  simp only [typeContrib]
  split
  · rfl
  · rename_i hskip
    obtain ⟨h1, h2⟩ := hn (by simpa using hskip)
    simp [h1, h2, specialContrib]

/-- **C4 (amended)**: a candidate with empty `categories` earns no
category-dependent bonus, but can still score through the +8
name/symbol-overlap bonus and the +3 trending bonus; its score cannot
exceed 0 only when, additionally, no non-skipped profile tag overlaps
its name or symbol and it is not trending. -/
theorem c4_amended (types held nets : List Str) (t : Token)
    (hcat : t.categories = [])
    (hname : ∀ ty ∈ types, skipType (lower ty) = false →
      hasOverlap (lower t.name) (lower ty) = false ∧
      hasOverlap (lower t.symbol) (lower ty) = false)
    (htrend : trendBonus t = 0) :
    scoreToken types held nets t ≤ 0 := by
  by_cases hheld : lower t.symbol ∈ held
  · rw [scoreToken_held types held nets t hheld]; norm_num
  · simp only [scoreToken, if_neg hheld, hcat, List.map_nil, htrend, add_zero]
    apply le_of_eq
    apply List.sum_eq_zero
    intro x hx
    simp only [List.mem_map] at hx
    obtain ⟨ty, hty, rfl⟩ := hx
    exact typeContrib_empty_cats _ _ _ _ (hname ty hty)

/-- Witness for C4 (amended) at a concrete input. -/
theorem c4_amended_witness :
    scoreToken [S "zzz"] [] [] ⟨S "w1", S "qqq", S "qqq", [], none⟩ ≤ 0 :=
  c4_amended [S "zzz"] [] [] ⟨S "w1", S "qqq", S "qqq", [], none⟩ (by decide)
    (by decide) (by decide)

/-! ### C2: empty-portfolio behaviour -/

/-- **C2 counterexample**: with an empty portfolio the recommendations
query returns the absent result `null` (modelled `none`), not the
first-5 filtered catalog; and even the core pipeline run on an empty
portfolio does not produce the claimed fallback list when a candidate is
trending — the trending candidate scores 3 and is returned by the
ranked branch (here: the usdt entry, which the claimed fallback would
exclude). -/
theorem c2_counterexample :
    recommendOpt [] [trendingUsdt] = none ∧
    topTokensF (heldSymbols []) [trendingUsdt] = [] ∧
    recommend [] [trendingUsdt] = [trendingUsdt] ∧
    recommend [] [trendingUsdt] ≠ topTokensF (heldSymbols []) [trendingUsdt] := by
  decide

theorem recommendWith_of_no_score (types held nets : List Str) (C : List Token)
    (h : ∀ t ∈ C, scoreToken types held nets t ≤ 0) :
    recommendWith types held nets C = topTokensF held C := by
  have hfil : (C.map (fun t => SToken.mk t (scoreToken types held nets t))).filter
      (fun st => 0 < st.score) = [] := by
    rw [List.filter_eq_nil_iff]
    intro st hst
    simp only [List.mem_map] at hst
    obtain ⟨t, ht, rfl⟩ := hst
    simpa using not_lt.mpr (h t ht)
  unfold recommendWith scoredSorted
  rw [hfil]
  rfl

/-- **C2 (amended)**: the recommendations query yields an absent
(`null`) result for an empty portfolio (page.tsx:900); and were the
core run on an empty portfolio, every candidate's score reduces to its
trending bonus, so the first-5 non-usdt/usdc fallback is produced
exactly when no candidate is trending. -/
theorem c2_amended (C : List Token) :
    recommendOpt [] C = none ∧
    ((∀ t ∈ C, trendBonus t = 0) → recommend [] C = topTokensF [] C) := by
  refine ⟨rfl, ?_⟩
  intro htr
  have : recommend [] C =
      recommendWith [] [] [] C := rfl
  rw [this]
  apply recommendWith_of_no_score
  intro t ht
  have hs : scoreToken [] [] [] t = trendBonus t := by
    simp [scoreToken]
  rw [hs, htr t ht]

/-- Witness for C2 (amended) at a concrete input. -/
theorem c2_amended_witness :
    recommendOpt [] [plainToken] = none ∧
    recommend [] [plainToken] = topTokensF [] [plainToken] :=
  ⟨(c2_amended [plainToken]).1, (c2_amended [plainToken]).2 (by decide)⟩

/-! ### C5: aggregation under malformed input -/

/-- **C5 counterexample**: a holding whose `balanceUSD` is the
unparseable string "abc" does not contribute 0 — `parseFloat` yields
NaN and NaN propagates through the running sum, so the total itself
becomes NaN (`none`), not the claimed 0. -/
theorem c5_counterexample :
    totalPortfolioValue [badUsdHolding] = none ∧
    (none : Option ℚ) ≠ some 0 := by
  decide

theorem foldl_addNaN_some (P : List Holding) :
    ∀ q : ℚ, (∀ h ∈ P, numOfBUsd h.balanceUSD ≠ none) →
      P.foldl (fun acc h => addNaN acc (numOfBUsd h.balanceUSD)) (some q) =
        some (q + (P.map (fun h => (numOfBUsd h.balanceUSD).getD 0)).sum) := by
  induction P with
  | nil => intro q _; simp
  | cons h hs ih =>
    intro q hall
    have hh := hall h (List.mem_cons_self h hs)
    obtain ⟨v, hv⟩ := Option.ne_none_iff_exists.mp hh
    simp only [List.foldl_cons, List.map_cons, List.sum_cons, ← hv]
    have h1 : addNaN (some q) (some v) = some (q + v) := rfl
    rw [h1, ih (q + v) (fun x hx => hall x (List.mem_cons_of_mem _ hx))]
    congr 1
    simp only [Option.getD_some]
    ring

/-- **C5 (amended)**: the empty portfolio yields total 0 and an empty
per-network grouping, and a holding with a *missing* `balanceUsd`
contributes exactly 0 (`numOfBUsd .missing = some 0`); but when some
holding's `balanceUsd` is present and unparseable the whole total is
NaN (`none`) rather than a sum with that holding contributing 0 — no
exception is raised either way. -/
theorem c5_amended (P : List Holding) :
    totalPortfolioValue [] = some 0 ∧
    portfolioByNetwork [] = some [] ∧
    numOfBUsd JRaw.missing = some 0 ∧
    ((∀ h ∈ P, numOfBUsd h.balanceUSD ≠ none) →
      totalPortfolioValue P =
        some ((P.map (fun h => (numOfBUsd h.balanceUSD).getD 0)).sum)) := by
  refine ⟨rfl, rfl, rfl, ?_⟩
  intro hall
  unfold totalPortfolioValue
  split
  · rename_i hemp
    rw [List.isEmpty_iff] at hemp
    subst hemp
    simp
  · rw [foldl_addNaN_some P 0 hall]
    simp

/-- Witness for C5 (amended) at a concrete input. -/
theorem c5_amended_witness :
    totalPortfolioValue
        [⟨S "m", none, none, JRaw.missing⟩, ⟨S "n", none, none, JRaw.num 3⟩] =
      some (([⟨S "m", none, none, JRaw.missing⟩,
        ⟨S "n", none, none, JRaw.num 3⟩] : List Holding).map
          (fun h => (numOfBUsd h.balanceUSD).getD 0)).sum :=
  (c5_amended _).2.2.2 (by decide)

/-! ### C3: what the scam filter actually suppresses -/

/-- **C3 counterexample**: the holding named
"Free Airdrop Claim http://scam.io" with symbol "scamx" *does*
contribute the tag "scamx" to the profile tag set — the symbol is added
before the scam check, which only guards the name-word extraction. -/
theorem c3_counterexample :
    scamName (holdingName scamHolding) = true ∧
    S "scamx" ∈ portfolioTokenTypes [scamHolding] ∧
    S "ethereum" ∈ portfolioTokenTypes [scamHolding] := by
  decide

/-- **C3 (amended)**: for a holding with a scam-looking name only the
name-word-extraction step is suppressed — the extractor behaves as if
that step were absent, and in particular the holding's cleaned symbol
(length > 1, not purely numeric) is still added to the tag set, as are
its network tags. -/
theorem c3_amended (acc : List Str) (h : Holding)
    (hscam : scamName (holdingName h) = true) :
    processHolding acc h = processHoldingKeepingSymbol acc h ∧
    (1 < (cleanSymbol h.symbol).length ∧ allDigits (cleanSymbol h.symbol) = false →
      cleanSymbol h.symbol ∈ processHolding acc h) := by
  constructor
  · unfold processHolding processHoldingKeepingSymbol wordStep
    simp [hscam]
  · rintro ⟨h1, h2⟩
    show cleanSymbol h.symbol ∈ wordStep _ _
    apply mem_wordStep
    apply mem_yieldStep
    apply mem_memeStep
    apply mem_keywordStep
    apply mem_netStep
    unfold symStep
    rw [if_pos ⟨h1, by simp [h2]⟩]
    exact addTag_self _ _

/-- Witness for C3 (amended) at a concrete input. -/
theorem c3_amended_witness :
    cleanSymbol scamHolding.symbol ∈ processHolding [] scamHolding :=
  (c3_amended [] scamHolding (by decide)).2 (by decide)

/-! ### Structural lemmas about the selector loops -/

theorem fillLoop_suffix : ∀ (L acc : List SToken),
    ∃ p, fillLoop L acc = acc ++ p ∧ p.Sublist L := by
  intro L
  induction L with
  | nil => intro acc; exact ⟨[], by simp [fillLoop], List.nil_sublist _⟩
  | cons t ts ih =>
    intro acc
    simp only [fillLoop]
    by_cases hc : (¬ ∃ u ∈ acc, u.tok.id = t.tok.id) ∧ acc.length < 5
    · rw [if_pos hc]
      by_cases h5 : 5 ≤ (acc ++ [t]).length
      · rw [if_pos h5]
        exact ⟨[t], rfl, List.Sublist.cons₂ t (List.nil_sublist ts)⟩
      · rw [if_neg h5]
        obtain ⟨p, hp, hs⟩ := ih (acc ++ [t])
        exact ⟨t :: p, by rw [hp]; simp, List.Sublist.cons₂ t hs⟩
    · rw [if_neg hc]
      by_cases h5 : 5 ≤ acc.length
      · rw [if_pos h5]; exact ⟨[], by simp, List.nil_sublist _⟩
      · rw [if_neg h5]
        obtain ⟨p, hp, hs⟩ := ih acc
        exact ⟨p, hp, List.Sublist.cons t hs⟩

theorem diversityLoop_suffix : ∀ (L : List SToken) (cats : List Str) (acc : List SToken),
    ∃ p, diversityLoop L cats acc = acc ++ p ∧ p.Sublist L := by
  intro L
  induction L with
  | nil => intro cats acc; exact ⟨[], by simp [diversityLoop], List.nil_sublist _⟩
  | cons t ts ih =>
    intro cats acc
    simp only [diversityLoop]
    by_cases hc : mainCat t ∉ cats ∧ acc.length < 5
    · rw [if_pos hc]
      by_cases h5 : 5 ≤ (acc ++ [t]).length
      · rw [if_pos h5]
        exact ⟨[t], rfl, List.Sublist.cons₂ t (List.nil_sublist ts)⟩
      · rw [if_neg h5]
        obtain ⟨p, hp, hs⟩ := ih (cats ++ [mainCat t]) (acc ++ [t])
        exact ⟨t :: p, by rw [hp]; simp, List.Sublist.cons₂ t hs⟩
    · rw [if_neg hc]
      by_cases h5 : 5 ≤ acc.length
      · rw [if_pos h5]; exact ⟨[], by simp, List.nil_sublist _⟩
      · rw [if_neg h5]
        obtain ⟨p, hp, hs⟩ := ih cats acc
        exact ⟨p, hp, List.Sublist.cons t hs⟩

theorem fillLoop_length_le5 : ∀ (L acc : List SToken),
    acc.length ≤ 5 → (fillLoop L acc).length ≤ 5 := by
  intro L
  induction L with
  | nil => intro acc h; simpa [fillLoop] using h
  | cons t ts ih =>
    intro acc h
    simp only [fillLoop]
    by_cases hc : (¬ ∃ u ∈ acc, u.tok.id = t.tok.id) ∧ acc.length < 5
    · rw [if_pos hc]
      have hlen : (acc ++ [t]).length ≤ 5 := by
        simp only [List.length_append, List.length_cons, List.length_nil]
        omega
      by_cases h5 : 5 ≤ (acc ++ [t]).length
      · rw [if_pos h5]; exact hlen
      · rw [if_neg h5]; exact ih _ hlen
    · rw [if_neg hc]
      by_cases h5 : 5 ≤ acc.length
      · rw [if_pos h5]; exact h
      · rw [if_neg h5]; exact ih _ h

theorem diversityLoop_length_le5 : ∀ (L : List SToken) (cats : List Str) (acc : List SToken),
    acc.length ≤ 5 → (diversityLoop L cats acc).length ≤ 5 := by
  intro L
  induction L with
  | nil => intro cats acc h; simpa [diversityLoop] using h
  | cons t ts ih =>
    intro cats acc h
    simp only [diversityLoop]
    by_cases hc : mainCat t ∉ cats ∧ acc.length < 5
    · rw [if_pos hc]
      have hlen : (acc ++ [t]).length ≤ 5 := by
        simp only [List.length_append, List.length_cons, List.length_nil]
        omega
      by_cases h5 : 5 ≤ (acc ++ [t]).length
      · rw [if_pos h5]; exact hlen
      · rw [if_neg h5]; exact ih _ _ hlen
    · rw [if_neg hc]
      by_cases h5 : 5 ≤ acc.length
      · rw [if_pos h5]; exact h
      · rw [if_neg h5]; exact ih _ _ h

theorem mem_fillLoop (L acc : List SToken) (st : SToken)
    (h : st ∈ fillLoop L acc) : st ∈ acc ∨ st ∈ L := by
  obtain ⟨p, hp, hs⟩ := fillLoop_suffix L acc
  rw [hp, List.mem_append] at h
  exact h.imp id (fun hm => hs.subset hm)

theorem mem_diversityLoop (L : List SToken) (cats : List Str) (acc : List SToken)
    (st : SToken) (h : st ∈ diversityLoop L cats acc) : st ∈ acc ∨ st ∈ L := by
  obtain ⟨p, hp, hs⟩ := diversityLoop_suffix L cats acc
  rw [hp, List.mem_append] at h
  exact h.imp id (fun hm => hs.subset hm)

theorem mem_rankedSel (sorted : List SToken) (st : SToken)
    (h : st ∈ rankedSel sorted) : st ∈ sorted := by
  simp only [rankedSel] at h
  by_cases h5 : (diversityLoop sorted [] []).length < 5
  · rw [if_pos h5] at h
    by_cases h0 : 0 < (fillLoop (sorted.take 5) (diversityLoop sorted [] [])).length
    · rw [if_pos h0] at h
      rcases mem_fillLoop _ _ _ h with hm | hm
      · rcases mem_diversityLoop _ _ _ _ hm with hm2 | hm2
        · exact absurd hm2 (List.not_mem_nil st)
        · exact hm2
      · exact List.mem_of_mem_take hm
    · rw [if_neg h0] at h
      exact List.mem_of_mem_take h
  · rw [if_neg h5] at h
    by_cases h0 : 0 < (diversityLoop sorted [] []).length
    · rw [if_pos h0] at h
      rcases mem_diversityLoop _ _ _ _ h with hm | hm
      · exact absurd hm (List.not_mem_nil st)
      · exact hm
    · rw [if_neg h0] at h
      exact List.mem_of_mem_take h

theorem mem_scoredSorted (types held nets : List Str) (C : List Token) (st : SToken)
    (h : st ∈ scoredSorted types held nets C) :
    st.tok ∈ C ∧ st.score = scoreToken types held nets st.tok ∧ 0 < st.score := by
  unfold scoredSorted at h
  have h2 := (List.perm_insertionSort scoreDesc _).mem_iff.mp h
  rw [List.mem_filter] at h2
  obtain ⟨hmap, hsc⟩ := h2
  rw [List.mem_map] at hmap
  obtain ⟨t, ht, rfl⟩ := hmap
  exact ⟨ht, rfl, by simpa using hsc⟩

/-! ### C1: exclusion invariant -/

theorem recommendWith_not_held (types held nets : List Str) (C : List Token) :
    ∀ t ∈ recommendWith types held nets C, lower t.symbol ∉ held := by
  intro t ht hmem
  simp only [recommendWith] at ht
  by_cases h0 : 0 < (scoredSorted types held nets C).length
  · rw [if_pos h0] at ht
    obtain ⟨st, hst, rfl⟩ := List.mem_map.mp ht
    obtain ⟨-, hsc, hpos⟩ :=
      mem_scoredSorted types held nets C st (mem_rankedSel _ _ hst)
    rw [scoreToken_held types held nets st.tok hmem] at hsc
    omega
  · rw [if_neg h0] at ht
    unfold topTokensF at ht
    have hf := (List.mem_filter.mp (List.mem_of_mem_take ht)).2
    have := of_decide_eq_true hf
    exact this.1 hmem

/-- **C1**: no recommendation has a symbol that is held (compared
case-insensitively): in the ranked branch every output entry has score
> 0 while held candidates score -1, and the fallback filters held
symbols out explicitly. -/
theorem c1_exclusion (P : List Holding) (C : List Token) :
    ∀ t ∈ recommend P C, lower t.symbol ∉ heldSymbols P :=
  recommendWith_not_held (portfolioTokenTypes P) (heldSymbols P) (networksFound P) C

/-- Witness for C1 at a concrete input (fallback branch). -/
theorem c1_exclusion_witness :
    lower plainToken.symbol ∉
      heldSymbols [⟨S "bbb", none, none, JRaw.missing⟩] :=
  c1_exclusion [⟨S "bbb", none, none, JRaw.missing⟩] [plainToken] plainToken
    (by decide)

/-! ### C8: output bound -/

theorem length_filter_split {α : Type} (p : α → Bool) (l : List α) :
    (l.filter p).length + (l.filter (fun a => !(p a))).length = l.length := by
  induction l with
  | nil => simp
  | cons a as ih =>
    rcases Bool.eq_false_or_eq_true (p a) with h | h <;>
      simp [List.filter_cons, h] <;> omega

theorem fillLoop_length_le : ∀ (L acc : List SToken),
    (fillLoop L acc).length ≤ acc.length +
      (L.filter (fun t => decide (¬ ∃ u ∈ acc, u.tok.id = t.tok.id))).length := by
  intro L
  induction L with
  | nil => intro acc; simp [fillLoop]
  | cons t ts ih =>
    intro acc
    simp only [fillLoop]
    by_cases hc : (¬ ∃ u ∈ acc, u.tok.id = t.tok.id) ∧ acc.length < 5
    · rw [if_pos hc]
      have hpt : decide (¬ ∃ u ∈ acc, u.tok.id = t.tok.id) = true :=
        decide_eq_true hc.1
      rw [List.filter_cons, if_pos hpt]
      by_cases h5 : 5 ≤ (acc ++ [t]).length
      · rw [if_pos h5]
        simp only [List.length_append, List.length_cons, List.length_nil]
        omega
      · rw [if_neg h5]
        have h1 := ih (acc ++ [t])
        have h2 : (ts.filter (fun x => decide (¬ ∃ u ∈ acc ++ [t], u.tok.id = x.tok.id))).length ≤
            (ts.filter (fun x => decide (¬ ∃ u ∈ acc, u.tok.id = x.tok.id))).length := by
          refine (List.monotone_filter_right ts ?_).length_le
          intro x hx
          have hx2 := of_decide_eq_true hx
          refine decide_eq_true (fun ⟨u, hu, he⟩ => hx2 ⟨u, List.mem_append_left _ hu, he⟩)
        simp only [List.length_append, List.length_cons, List.length_nil] at h1 ⊢
        omega
    · rw [if_neg hc]
      by_cases h5 : 5 ≤ acc.length
      · rw [if_pos h5]
        have := List.length_filter_le
          (fun x => decide (¬ ∃ u ∈ acc, u.tok.id = x.tok.id)) (t :: ts)
        omega
      · rw [if_neg h5]
        have h1 := ih acc
        have h2 : (ts.filter (fun x => decide (¬ ∃ u ∈ acc, u.tok.id = x.tok.id))).length ≤
            ((t :: ts).filter (fun x => decide (¬ ∃ u ∈ acc, u.tok.id = x.tok.id))).length := by
          rw [List.filter_cons]
          split <;> simp
        omega

theorem rankedSel_length_le5 (sorted : List SToken) :
    (rankedSel sorted).length ≤ 5 := by
  simp only [rankedSel]
  have hd5 : (diversityLoop sorted [] []).length ≤ 5 :=
    diversityLoop_length_le5 _ _ _ (by simp)
  by_cases h5 : (diversityLoop sorted [] []).length < 5
  · rw [if_pos h5]
    have hf5 := fillLoop_length_le5 (sorted.take 5) _ hd5
    by_cases h0 : 0 < (fillLoop (sorted.take 5) (diversityLoop sorted [] [])).length
    · rw [if_pos h0]; exact hf5
    · rw [if_neg h0]
      simp only [List.length_take]
      omega
  · rw [if_neg h5]
    by_cases h0 : 0 < (diversityLoop sorted [] []).length
    · rw [if_pos h0]; exact hd5
    · rw [if_neg h0]
      simp only [List.length_take]
      omega

theorem rankedSel_length_le_self (sorted : List SToken) (h : sorted.length < 5) :
    (rankedSel sorted).length ≤ sorted.length := by
  have htake : sorted.take 5 = sorted := List.take_of_length_le (by omega)
  simp only [rankedSel, htake]
  obtain ⟨p, hp, hps⟩ := diversityLoop_suffix sorted [] []
  have hdsub : (diversityLoop sorted [] []).Sublist sorted := by
    rw [hp]; simpa using hps
  by_cases h5 : (diversityLoop sorted [] []).length < 5
  · rw [if_pos h5]
    by_cases h0 : 0 < (fillLoop sorted (diversityLoop sorted [] [])).length
    · rw [if_pos h0]
      set d := diversityLoop sorted [] [] with hdd
      have hfle := fillLoop_length_le sorted d
      have hdself : d.filter (fun t => decide (∃ u ∈ d, u.tok.id = t.tok.id)) = d :=
        List.filter_eq_self.mpr (fun x hx => decide_eq_true ⟨x, hx, rfl⟩)
      have h1 : d.length ≤
          (sorted.filter (fun t => decide (∃ u ∈ d, u.tok.id = t.tok.id))).length := by
        calc d.length = (d.filter (fun t => decide (∃ u ∈ d, u.tok.id = t.tok.id))).length := by
              rw [hdself]
          _ ≤ _ := (hdsub.filter _).length_le
      have h2 := length_filter_split
        (fun t => decide (∃ u ∈ d, u.tok.id = t.tok.id)) sorted
      have hbr : sorted.filter (fun t => decide (¬ ∃ u ∈ d, u.tok.id = t.tok.id)) =
          sorted.filter (fun t => !(decide (∃ u ∈ d, u.tok.id = t.tok.id))) :=
        List.filter_congr (fun x _ => decide_not)
      rw [hbr] at hfle
      omega
    · rw [if_neg h0]
  · rw [if_neg h5]
    by_cases h0 : 0 < (diversityLoop sorted [] []).length
    · rw [if_pos h0]; exact hdsub.length_le
    · rw [if_neg h0]

theorem scoredSorted_length_le (types held nets : List Str) (C : List Token) :
    (scoredSorted types held nets C).length ≤ C.length := by
  unfold scoredSorted
  rw [(List.perm_insertionSort scoreDesc _).length_eq]
  exact le_trans (List.length_filter_le _ _) (le_of_eq (List.length_map _ _))

theorem recommendWith_length_le (types held nets : List Str) (C : List Token) :
    (recommendWith types held nets C).length ≤ 5 ∧
    (recommendWith types held nets C).length ≤ C.length := by
  simp only [recommendWith]
  by_cases h0 : 0 < (scoredSorted types held nets C).length
  · rw [if_pos h0, List.length_map]
    refine ⟨rankedSel_length_le5 _, ?_⟩
    by_cases h5 : 5 ≤ (scoredSorted types held nets C).length
    · exact le_trans (rankedSel_length_le5 _)
        (le_trans h5 (scoredSorted_length_le types held nets C))
    · exact le_trans (rankedSel_length_le_self _ (by omega))
        (scoredSorted_length_le types held nets C)
  · rw [if_neg h0]
    unfold topTokensF
    constructor
    · simp only [List.length_take]
      omega
    · exact le_trans ((List.take_sublist 5 _).length_le)
        (List.length_filter_le _ _)

/-- **C8**: the recommendation list never exceeds 5 entries (the
implementation's N) and never exceeds the catalog length — in both the
ranked branch (diversity and fill passes stop at 5, and every entry
comes from the scored sublist of the catalog) and the fallback branch
(a 5-element prefix of a filtered copy of the catalog). -/
theorem c8_bound (P : List Holding) (C : List Token) :
    (recommend P C).length ≤ 5 ∧ (recommend P C).length ≤ C.length :=
  recommendWith_length_le (portfolioTokenTypes P) (heldSymbols P) (networksFound P) C

/-! ### C10: the head of the ranked output has maximal score -/

theorem diversityLoop_cons_head (st0 : SToken) (rest : List SToken) :
    ∃ p, diversityLoop (st0 :: rest) [] [] = st0 :: p := by
  simp only [diversityLoop]
  rw [if_pos ⟨List.not_mem_nil _, by simp⟩]
  rw [if_neg (by simp)]
  obtain ⟨p, hp, -⟩ := diversityLoop_suffix rest ([] ++ [mainCat st0]) ([] ++ [st0])
  rw [hp]
  exact ⟨p, by simp⟩

theorem rankedSel_head (st0 : SToken) (rest : List SToken) :
    ∃ tail, rankedSel (st0 :: rest) = st0 :: tail := by
  obtain ⟨p, hp⟩ := diversityLoop_cons_head st0 rest
  simp only [rankedSel, hp]
  by_cases h5 : (st0 :: p).length < 5
  · rw [if_pos h5]
    obtain ⟨q, hq, -⟩ := fillLoop_suffix ((st0 :: rest).take 5) (st0 :: p)
    rw [hq, if_pos (by simp)]
    exact ⟨p ++ q, by simp⟩
  · rw [if_neg h5, if_pos (by simp)]
    exact ⟨p, rfl⟩

/-- **C10** (implicit): whenever the score-filtered candidate list is
non-empty, the first element of the returned recommendation list is a
candidate of maximal score — the diversity pass always admits the head
of the descending score-sorted list. -/
theorem c10_head_max (types held nets : List Str) (C : List Token)
    (hne : scoredSorted types held nets C ≠ []) :
    ∃ st ∈ scoredSorted types held nets C,
      (recommendWith types held nets C).head? = some st.tok ∧
      ∀ u ∈ scoredSorted types held nets C, u.score ≤ st.score := by
  obtain ⟨st0, rest, hcons⟩ := List.exists_cons_of_ne_nil hne
  have hlen : 0 < (scoredSorted types held nets C).length := by rw [hcons]; simp
  refine ⟨st0, by rw [hcons]; exact List.mem_cons_self st0 rest, ?_, ?_⟩
  · simp only [recommendWith, if_pos hlen]
    obtain ⟨tail, htail⟩ := rankedSel_head st0 rest
    rw [hcons, htail]
    simp
  · intro u hu
    have hsorted : List.Sorted scoreDesc (scoredSorted types held nets C) :=
      List.sorted_insertionSort scoreDesc _
    rw [hcons] at hsorted hu
    rcases List.mem_cons.mp hu with rfl | hmem
    · exact le_refl _
    · exact (List.pairwise_cons.mp hsorted).1 u hmem

/-- Witness for C10 at a concrete input. -/
theorem c10_head_max_witness :
    ∃ st ∈ scoredSorted [S "defi"] [] [] [uniToken],
      (recommendWith [S "defi"] [] [] [uniToken]).head? = some st.tok ∧
      ∀ u ∈ scoredSorted [S "defi"] [] [] [uniToken], u.score ≤ st.score :=
  c10_head_max [S "defi"] [] [] [uniToken] (by decide)

/-! ### C6: the code's selector equals the spec's description of it -/

theorem fillLoop_of_ge5 (L acc : List SToken) (h : 5 ≤ acc.length) :
    fillLoop L acc = acc := by
  cases L with
  | nil => rfl
  | cons t ts =>
    simp only [fillLoop]
    have hcond : ¬((¬ ∃ u ∈ acc, u.tok.id = t.tok.id) ∧ acc.length < 5) :=
      fun hc => absurd hc.2 (by omega)
    rw [if_neg hcond, if_pos h]

theorem fillLoop_append (p rest : List SToken) :
    ∀ acc, 5 ≤ (fillLoop p acc).length →
      fillLoop (p ++ rest) acc = fillLoop p acc := by
  induction p with
  | nil =>
    intro acc h
    simp only [fillLoop] at h
    simp only [List.nil_append]
    exact fillLoop_of_ge5 rest acc h
  | cons t ts ih =>
    intro acc h
    simp only [List.cons_append, fillLoop] at h ⊢
    by_cases hc : (¬ ∃ u ∈ acc, u.tok.id = t.tok.id) ∧ acc.length < 5
    · rw [if_pos hc] at h ⊢
      by_cases h5 : 5 ≤ (acc ++ [t]).length
      · rw [if_pos h5, if_pos h5]
      · rw [if_neg h5] at h
        rw [if_neg h5, if_neg h5]
        exact ih _ h
    · rw [if_neg hc] at h ⊢
      by_cases h5 : 5 ≤ acc.length
      · rw [if_pos h5, if_pos h5]
      · rw [if_neg h5] at h
        rw [if_neg h5, if_neg h5]
        exact ih _ h

theorem fillLoop_reaches (L : List SToken) :
    ∀ acc, ((L.map (fun st => st.tok.id)).Nodup) →
      min 5 (acc.length +
        (L.filter (fun t => decide (¬ ∃ u ∈ acc, u.tok.id = t.tok.id))).length)
        ≤ (fillLoop L acc).length := by
  induction L with
  | nil =>
    intro acc _
    simp [fillLoop]
  | cons t ts ih =>
    intro acc hnd
    have hmap : (t.tok.id :: ts.map (fun st => st.tok.id)).Nodup := by
      simpa using hnd
    have hnd2 := List.nodup_cons.mp hmap
    simp only [fillLoop]
    by_cases hc : (¬ ∃ u ∈ acc, u.tok.id = t.tok.id) ∧ acc.length < 5
    · rw [if_pos hc]
      have hpt : (fun x => decide (¬ ∃ u ∈ acc, u.tok.id = x.tok.id)) t = true :=
        decide_eq_true hc.1
      by_cases h5 : 5 ≤ (acc ++ [t]).length
      · rw [if_pos h5]
        simp only [List.length_append, List.length_cons, List.length_nil] at h5 ⊢
        omega
      · rw [if_neg h5]
        have hrec := ih (acc ++ [t]) hnd2.2
        have heq : ts.filter (fun x => decide (¬ ∃ u ∈ acc ++ [t], u.tok.id = x.tok.id)) =
            ts.filter (fun x => decide (¬ ∃ u ∈ acc, u.tok.id = x.tok.id)) := by
          apply List.filter_congr
          intro x hx
          have hxne : x.tok.id ≠ t.tok.id := by
            intro he
            exact hnd2.1 (by rw [← he]; exact List.mem_map_of_mem _ hx)
          rw [decide_eq_decide]
          constructor
          · intro hno hex
            obtain ⟨u, hu, he⟩ := hex
            exact hno ⟨u, List.mem_append_left _ hu, he⟩
          · intro hno hex
            obtain ⟨u, hu, he⟩ := hex
            rcases List.mem_append.mp hu with h1 | h1
            · exact hno ⟨u, h1, he⟩
            · rw [List.mem_singleton] at h1
              subst h1
              exact hxne (by rw [← he])
        rw [heq] at hrec
        rw [List.filter_cons, if_pos hpt]
        simp only [List.length_cons, List.length_append, List.length_nil] at hrec ⊢
        omega
    · rw [if_neg hc]
      by_cases h5 : 5 ≤ acc.length
      · rw [if_pos h5]
        exact le_trans (min_le_left _ _) h5
      · rw [if_neg h5]
        have hex : ¬¬ ∃ u ∈ acc, u.tok.id = t.tok.id :=
          fun hna => hc ⟨hna, by omega⟩
        have hptf : decide (¬ ∃ u ∈ acc, u.tok.id = t.tok.id) = false :=
          decide_eq_false hex
        rw [List.filter_cons, hptf, if_neg Bool.false_ne_true]
        exact ih acc hnd2.2

theorem filter_hit_le (L d : List SToken)
    (hnd : (L.map (fun st => st.tok.id)).Nodup) :
    (L.filter (fun t => decide (∃ u ∈ d, u.tok.id = t.tok.id))).length ≤ d.length := by
  set p := fun t : SToken => decide (∃ u ∈ d, u.tok.id = t.tok.id) with hpdef
  have h1 : ((L.filter p).map (fun st => st.tok.id)).Nodup :=
    List.Nodup.sublist (List.Sublist.map _ (List.filter_sublist L)) hnd
  have h2 : ((L.filter p).map (fun st => st.tok.id)) ⊆ d.map (fun st => st.tok.id) := by
    intro x hx
    rw [List.mem_map] at hx
    obtain ⟨t, ht, rfl⟩ := hx
    obtain ⟨u, hu, he⟩ := of_decide_eq_true (List.mem_filter.mp ht).2
    rw [List.mem_map]
    exact ⟨u, hu, he⟩
  calc (L.filter p).length
      = ((L.filter p).map (fun st => st.tok.id)).length := (List.length_map _ _).symm
    _ ≤ (d.map (fun st => st.tok.id)).length := (h1.subperm h2).length_le
    _ = d.length := List.length_map _ _

theorem fillLoop_take5 (sorted d : List SToken)
    (hnd : (sorted.map (fun st => st.tok.id)).Nodup) :
    fillLoop (sorted.take 5) d = fillLoop sorted d := by
  by_cases hlen : sorted.length ≤ 5
  · rw [List.take_of_length_le hlen]
  · have htake5 : (sorted.take 5).length = 5 := by
      rw [List.length_take]; omega
    have hnd5 : ((sorted.take 5).map (fun st => st.tok.id)).Nodup :=
      List.Nodup.sublist (List.Sublist.map _ (List.take_sublist 5 sorted)) hnd
    have hreach := fillLoop_reaches (sorted.take 5) d hnd5
    have hhit := filter_hit_le (sorted.take 5) d hnd5
    have hsplit := length_filter_split
      (fun t => decide (∃ u ∈ d, u.tok.id = t.tok.id)) (sorted.take 5)
    have hbr : (sorted.take 5).filter (fun t => decide (¬ ∃ u ∈ d, u.tok.id = t.tok.id)) =
        (sorted.take 5).filter (fun t => !(decide (∃ u ∈ d, u.tok.id = t.tok.id))) :=
      List.filter_congr (fun x _ => decide_not)
    rw [hbr] at hreach
    have h5 : 5 ≤ (fillLoop (sorted.take 5) d).length := by
      refine le_trans ?_ hreach
      have hx : 5 ≤ d.length +
          ((sorted.take 5).filter (fun t => !(decide (∃ u ∈ d, u.tok.id = t.tok.id)))).length := by
        omega
      omega
    calc fillLoop (sorted.take 5) d
        = fillLoop (sorted.take 5 ++ sorted.drop 5) d :=
          (fillLoop_append _ _ d h5).symm
      _ = fillLoop sorted d := by rw [List.take_append_drop]

theorem scoredSorted_ids_nodup (types held nets : List Str) (C : List Token)
    (hn : (C.map Token.id).Nodup) :
    ((scoredSorted types held nets C).map (fun st => st.tok.id)).Nodup := by
  unfold scoredSorted
  have hcomp : (((C.map fun t => SToken.mk t (scoreToken types held nets t)).filter
      (fun st => 0 < st.score)).map (fun st => st.tok.id)).Nodup := by
    refine List.Nodup.sublist (List.Sublist.map _ (List.filter_sublist _)) ?_
    rw [List.map_map]
    exact hn
  exact ((List.perm_insertionSort scoreDesc _).map
    (fun st => st.tok.id)).nodup_iff.mpr hcomp

theorem rankedSel_eq_spec (sorted : List SToken)
    (hnd : (sorted.map (fun st => st.tok.id)).Nodup) :
    rankedSel sorted = selectSpecification sorted := by
  cases sorted with
  | nil => rfl
  | cons st0 rest =>
    obtain ⟨p, hp⟩ := diversityLoop_cons_head st0 rest
    simp only [rankedSel, selectSpecification, hp]
    by_cases h5 : (st0 :: p).length < 5
    · rw [if_pos h5, if_pos h5, fillLoop_take5 (st0 :: rest) (st0 :: p) hnd]
      obtain ⟨q, hq, -⟩ := fillLoop_suffix (st0 :: rest) (st0 :: p)
      rw [hq, if_pos (by simp)]
    · rw [if_neg h5, if_neg h5, if_pos (by simp)]

/-- **C6**: under the data-model invariant that catalog ids are unique,
the code's selector (diversity pass, then fill from the 5-element prefix
of the score-sorted list) produces exactly the list described by the
specification (diversity pass, then fill from the full score-sorted
list, skipping ids already chosen, insertion order preserved); in
particular, when some candidate scores > 0 the returned recommendations
are that list's token data. -/
theorem c6_selector (types held nets : List Str) (C : List Token)
    (hn : (C.map Token.id).Nodup) :
    rankedSel (scoredSorted types held nets C) =
      selectSpecification (scoredSorted types held nets C) ∧
    (scoredSorted types held nets C ≠ [] →
      recommendWith types held nets C =
        (selectSpecification (scoredSorted types held nets C)).map SToken.tok) := by
  have h1 := rankedSel_eq_spec _ (scoredSorted_ids_nodup types held nets C hn)
  refine ⟨h1, fun hne => ?_⟩
  simp only [recommendWith, if_pos (List.length_pos.mpr hne)]
  rw [h1]

/-- Witness for C6 at the spec's diversity example. -/
theorem c6_selector_witness :
    rankedSel (scoredSorted [S "defi"] [] [] specCatalog) =
      selectSpecification (scoredSorted [S "defi"] [] [] specCatalog) ∧
    recommendWith [S "defi"] [] [] specCatalog =
      (selectSpecification (scoredSorted [S "defi"] [] [] specCatalog)).map SToken.tok :=
  ⟨(c6_selector [S "defi"] [] [] specCatalog (by decide)).1,
   (c6_selector [S "defi"] [] [] specCatalog (by decide)).2 (by decide)⟩

end DappProfile
